import Mathlib

/-!
Shallow embedding of the core of the `rust-tracer` ray tracer
(src/math.rs, src/interval.rs, src/hittable.rs, src/sphere.rs,
src/camera.rs) over exact real arithmetic.

Modelling conventions:
* `f64` values are modelled as real numbers (`ℝ`); real division is total
  with `x / 0 = 0`, whereas `f64` yields NaN/inf there.  Theorems touching
  the degenerate zero-direction case carry an explicit nonzero hypothesis.
* The `Vec3` component array becomes a structure with fields `x, y, z`;
  the accessors agree with the Rust accessors of the same names.
* `Box<dyn Hittable>` lists contain only `Sphere` values (the sole concrete
  geometry in the repository), so a scene is modelled as `List Sphere`.
* Randomness (`crate::random::normal_random`, absent from the sources) is
  modelled as explicit streams of vectors passed to the functions that
  consume it.
-/

namespace RustTracer

noncomputable section

open Classical

/-- 3-component real vector, from `math.rs` (`struct Vec3 { data: [f64; 3] }`). -/
structure Vec3 where
  x : ℝ
  y : ℝ
  z : ℝ
deriving DecidableEq

/-- Alias `pub type Point3 = Vec3` from `math.rs`. -/
abbrev Point3 := Vec3

/-- Alias `pub type Color = Vec3` from `image.rs`. -/
abbrev Color := Vec3

namespace Vec3

/-- `Vec3::zero` from `math.rs`. -/
def zero : Vec3 := ⟨0, 0, 0⟩

/-- `Vec3::unit` from `math.rs`. -/
def unit : Vec3 := ⟨1, 1, 1⟩

/-- Componentwise addition, `impl Add<Vec3> for Vec3` in `math.rs`. -/
instance : Add Vec3 := ⟨fun a b => ⟨a.x + b.x, a.y + b.y, a.z + b.z⟩⟩

/-- Componentwise subtraction, `impl Sub<Vec3> for Vec3` in `math.rs`. -/
instance : Sub Vec3 := ⟨fun a b => ⟨a.x - b.x, a.y - b.y, a.z - b.z⟩⟩

/-- Componentwise negation, `impl Neg for Vec3` in `math.rs`. -/
instance : Neg Vec3 := ⟨fun a => ⟨-a.x, -a.y, -a.z⟩⟩

/-- Scalar multiplication `f64 * Vec3`, `impl Mul<Vec3> for f64` in `math.rs`. -/
instance : HMul ℝ Vec3 Vec3 := ⟨fun k v => ⟨k * v.x, k * v.y, k * v.z⟩⟩

/-- Scalar division `Vec3 / f64`, `impl Div<f64> for Vec3` in `math.rs`. -/
instance : HDiv Vec3 ℝ Vec3 := ⟨fun v k => ⟨v.x / k, v.y / k, v.z / k⟩⟩

/-- `Vec3::length2` from `math.rs`: squared Euclidean length. -/
def length2 (v : Vec3) : ℝ := v.x * v.x + v.y * v.y + v.z * v.z

/-- `Vec3::length` from `math.rs`. -/
def length (v : Vec3) : ℝ := Real.sqrt v.length2

/-- `Vec3::normal` from `math.rs`: the vector divided by its length. -/
def normal (v : Vec3) : Vec3 := v / v.length

/-- `Vec3::dot` from `math.rs`. -/
def dot (a b : Vec3) : ℝ := a.x * b.x + a.y * b.y + a.z * b.z

end Vec3

/-- Linear interpolation from `math.rs`: `start * (1 - t) + end * t`. -/
def lerp (start stop : Vec3) (t : ℝ) : Vec3 := (1 - t) * start + t * stop

/-- Modelled from the spec: the `Ray` primitive (module `ray` is declared in
`main.rs` but its file is not among the sources).  Per the spec it is an
origin + direction pair supporting evaluation of a point at parameter t. -/
structure Ray where
  origin : Point3
  direction : Vec3

/-- Modelled from the spec: `Ray::at(t)`, the point at parameter t along the
ray, `origin + t * direction`. -/
def Ray.at (r : Ray) (t : ℝ) : Point3 := r.origin + t * r.direction

/-- `f64::MAX`, the `INF` constant of `interval.rs`, as an exact real. -/
def INF : ℝ := 2 ^ 1024 - 2 ^ 971

/-- `Interval` from `interval.rs`. -/
structure Interval where
  min : ℝ
  max : ℝ

namespace Interval

/-- `Interval::new` from `interval.rs`. -/
def new (min max : ℝ) : Interval := ⟨min, max⟩

/-- `Interval::positive` from `interval.rs`: `{ min: 0., max: INF }`. -/
def positive : Interval := ⟨0, INF⟩

/-- `Interval::contains` from `interval.rs`: `min <= v && v <= max`. -/
def contains (i : Interval) (v : ℝ) : Prop := i.min ≤ v ∧ v ≤ i.max

/-- `Interval::clamp` from `interval.rs`. -/
def clamp (i : Interval) (v : ℝ) : ℝ :=
  if v < i.min then i.min else if v > i.max then i.max else v

end Interval

/-- `HitRecord` from `hittable.rs`.  `front_face` is `Option<bool>` in the
source (`None` until `set_face_normal` runs). -/
structure HitRecord where
  point : Point3
  normal : Vec3
  t : ℝ
  front_face : Option Bool

/-- `HitRecord::new` from `hittable.rs`: builds the record and resolves the
normal orientation via `set_face_normal` (`ff = direction · outward < 0`;
normal is `outward` when `ff` else `-outward`). -/
def HitRecord.new (point : Point3) (outward_normal : Vec3) (t : ℝ) (ray : Ray) :
    HitRecord :=
  if ray.direction.dot outward_normal < 0 then
    ⟨point, outward_normal, t, some true⟩
  else
    ⟨point, -outward_normal, t, some false⟩

/-- `Sphere` from `sphere.rs`. -/
structure Sphere where
  center : Point3
  radius : ℝ

/-- `Sphere::new` from `sphere.rs`: clamps a negative radius to 0. -/
def Sphere.new (center : Point3) (radius : ℝ) : Sphere :=
  ⟨center, Max.max radius 0⟩

namespace Sphere

/-- The local `a = d.length2()` of `Sphere::hit` in `sphere.rs`. -/
def a (_s : Sphere) (ray : Ray) : ℝ := ray.direction.length2

/-- The local `h = d.dot(&c_q)` of `Sphere::hit` in `sphere.rs`, with
`c_q = self.center - ray.origin`. -/
def h (s : Sphere) (ray : Ray) : ℝ := ray.direction.dot (s.center - ray.origin)

/-- The local `c = c_q.length2() - radius * radius` of `Sphere::hit`. -/
def c (s : Sphere) (ray : Ray) : ℝ :=
  (s.center - ray.origin).length2 - s.radius * s.radius

/-- The local `discriminant = h * h - a * c` of `Sphere::hit`. -/
def discriminant (s : Sphere) (ray : Ray) : ℝ := s.h ray * s.h ray - s.a ray * s.c ray

/-- The smaller candidate root `(h - sqrtd) / a` of `Sphere::hit`. -/
def root1 (s : Sphere) (ray : Ray) : ℝ :=
  (s.h ray - Real.sqrt (s.discriminant ray)) / s.a ray

/-- The larger candidate root `(h + sqrtd) / a` of `Sphere::hit`. -/
def root2 (s : Sphere) (ray : Ray) : ℝ :=
  (s.h ray + Real.sqrt (s.discriminant ray)) / s.a ray

/-- The record `Sphere::hit` builds for an accepted root: hit point
`ray.at(root)`, outward normal `(hit_point - center) / radius`. -/
def record (s : Sphere) (ray : Ray) (root : ℝ) : HitRecord :=
  HitRecord.new (ray.at root) ((ray.at root - s.center) / s.radius) root ray

/-- `Sphere::hit` from `sphere.rs` (`impl Hittable for Sphere`): no hit when
the discriminant is negative, else the smaller root if it is inside the
interval, else the larger root if it is inside, else no hit. -/
def hit (s : Sphere) (ray : Ray) (bounds : Interval) : Option HitRecord :=
  if s.discriminant ray < 0 then none
  else if bounds.contains (s.root1 ray) then some (s.record ray (s.root1 ray))
  else if bounds.contains (s.root2 ray) then some (s.record ray (s.root2 ray))
  else none

end Sphere

/-- The loop body of `HittableList::hit` from `hittable.rs`: state is the
pair (current best record `ret`, current `closest`); each object is tested
against the unchanged `bound` and its record is kept only when
`closest > rec.t`. -/
def HittableList.hitLoop (ray : Ray) (bound : Interval) :
    List Sphere → Option HitRecord → ℝ → Option HitRecord
  | [], ret, _ => ret
  | obj :: rest, ret, closest =>
    match obj.hit ray bound with
    | some rec =>
      if closest > rec.t then
        HittableList.hitLoop ray bound rest (some rec) rec.t
      else
        HittableList.hitLoop ray bound rest ret closest
    | none => HittableList.hitLoop ray bound rest ret closest

/-- `HittableList::hit` from `hittable.rs`: `ret = None`, `closest =
bound.max`, then the loop over the owned objects in insertion order. -/
def HittableList.hit (objects : List Sphere) (ray : Ray) (bound : Interval) :
    Option HitRecord :=
  HittableList.hitLoop ray bound objects none bound.max

/-- `linear_to_gamma` from `camera.rs`: gamma-2 transform of one channel. -/
def linear_to_gamma (linear_component : ℝ) : ℝ :=
  if linear_component > 0 then Real.sqrt linear_component else 0

/-- `ppm::write_color` from `camera.rs`, modelled as the triple of emitted
integer channel values: each channel is gamma-transformed, clamped to
`[0, 0.999]` by `Interval::clamp`, scaled by 255 and truncated to an
integer (the `as i16` cast; all values here are nonnegative, so the cast
truncates downward). -/
def write_color (c : Color) : ℤ × ℤ × ℤ :=
  let r := linear_to_gamma c.x
  let g := linear_to_gamma c.y
  let b := linear_to_gamma c.z
  let intensity := Interval.new 0 0.999
  (⌊255 * intensity.clamp r⌋, ⌊255 * intensity.clamp g⌋, ⌊255 * intensity.clamp b⌋)

/-- `Camera` from `camera.rs` (the geometric fields used by ray
generation; image dimensions are the validated `Image` width/height). -/
structure Camera where
  focal_length : ℝ
  center : Point3
  viewport_height : ℝ
  viewport_width : ℝ
  image_width : ℤ
  image_height : ℤ

namespace Camera

/-- `Camera::viewport_u` from `camera.rs`. -/
def viewport_u (cam : Camera) : Vec3 := ⟨cam.viewport_width, 0, 0⟩

/-- `Camera::viewport_v` from `camera.rs` (negated y). -/
def viewport_v (cam : Camera) : Vec3 := ⟨0, -cam.viewport_height, 0⟩

/-- `Camera::delta_u` from `camera.rs`. -/
def delta_u (cam : Camera) : Vec3 := cam.viewport_u / (cam.image_width : ℝ)

/-- `Camera::delta_v` from `camera.rs`. -/
def delta_v (cam : Camera) : Vec3 := cam.viewport_v / (cam.image_height : ℝ)

/-- `Camera::upper_left_viewport` from `camera.rs`:
`center - (0,0,focal_length) - 0.5 * (viewport_u + viewport_v)`. -/
def upper_left_viewport (cam : Camera) : Vec3 :=
  cam.center - ⟨0, 0, cam.focal_length⟩ - (0.5 : ℝ) * (cam.viewport_u + cam.viewport_v)

/-- `Camera::upper_left_pixel` from `camera.rs`:
`upper_left_viewport + 0.5 * (delta_u + delta_v)`. -/
def upper_left_pixel (cam : Camera) : Vec3 :=
  cam.upper_left_viewport + (0.5 : ℝ) * (cam.delta_u + cam.delta_v)

/-- `Camera::get_ray` from `camera.rs`, with the jitter offset (drawn from
`Camera::sample_square` in the source, whose random source is not among the
src files) passed explicitly. -/
def get_ray (cam : Camera) (u v : ℤ) (offset : Vec3) : Ray :=
  let pixel_sample := cam.upper_left_pixel +
    (((u : ℝ) + offset.x) * cam.delta_u + ((v : ℝ) + offset.y) * cam.delta_v)
  ⟨cam.center, pixel_sample - cam.center⟩

/-- `Camera::ray_color` from `camera.rs`.  The recursion depth is the
nonnegative bounce budget (`i16` `depth` in the source, tested against 0 and
decremented on each bounce).  `rand` is the stream of random unit vectors
that `Vec3::unit_random_on_sphere` would produce (`crate::random` is not
among the src files); the bounce at the current level uses `rand 0` and the
recursive call receives the shifted stream. -/
def ray_color (rand : ℕ → Vec3) (ray : Ray) (world : List Sphere) : ℕ → Color
  | 0 => Vec3.zero
  | depth + 1 =>
    match HittableList.hit world ray Interval.positive with
    | some rec =>
      let direction := rec.normal + rand 0
      (0.5 : ℝ) * ray_color (fun n => rand (n + 1)) ⟨rec.point, direction⟩ world depth
    | none =>
      let unit_direction := ray.direction.normal
      let blue : Color := ⟨0.5, 0.7, 1.0⟩
      let white : Color := ⟨1.0, 1.0, 1.0⟩
      let t := 0.5 * (unit_direction.y + 1.0)
      lerp white blue t

/-- Number of bounces (recursive self-calls) performed by
`Camera::ray_color`: mirrors the recursion of `ray_color`. -/
def ray_bounces (rand : ℕ → Vec3) (ray : Ray) (world : List Sphere) : ℕ → ℕ
  | 0 => 0
  | depth + 1 =>
    match HittableList.hit world ray Interval.positive with
    | some rec =>
      let direction := rec.normal + rand 0
      1 + ray_bounces (fun n => rand (n + 1)) ⟨rec.point, direction⟩ world depth
    | none => 0

end Camera

/-- The list of per-object hit results that `HittableList::hit` inspects:
each owned object tested against the (unchanged) interval, misses dropped,
in insertion order. -/
def candidateHits (objects : List Sphere) (ray : Ray) (bound : Interval) :
    List HitRecord :=
  objects.filterMap (fun s => s.hit ray bound)

/-- The loop of the reference algorithm described by the spec for the scene
collection's hit: the shrinking upper bound `closest` narrows the interval
each object is tested against, and a hit inside the narrowed interval is
always adopted. -/
def referenceHitLoop (ray : Ray) (minv : ℝ) :
    List Sphere → Option HitRecord → ℝ → Option HitRecord
  | [], ret, _ => ret
  | obj :: rest, ret, closest =>
    match obj.hit ray (Interval.new minv closest) with
    | some rec => referenceHitLoop ray minv rest (some rec) rec.t
    | none => referenceHitLoop ray minv rest ret closest

/-- The reference scan described by the spec: iterate all owned objects
maintaining a shrinking upper bound `closest` initialized to the interval's
max, testing each successive object against `[min, closest]`. -/
def referenceHit (objects : List Sphere) (ray : Ray) (bound : Interval) :
    Option HitRecord :=
  referenceHitLoop ray bound.min objects none bound.max

/-- A point lies exactly on the surface of some sphere of the scene. -/
def onSphere (world : List Sphere) (p : Point3) : Prop :=
  ∃ s ∈ world, (p - s.center).length2 = s.radius * s.radius

/-- Concrete example sphere: center (0,0,-2), radius 1. -/
def exSphere : Sphere := ⟨⟨0, 0, -2⟩, 1⟩

/-- Concrete example sphere of radius 0 (legal: `Sphere::new` clamps the
radius to be at least 0). -/
def exSphere0 : Sphere := ⟨⟨0, 0, -2⟩, 0⟩

/-- Concrete example ray: origin at the world origin, direction (0,0,-1).
Its hit with `exSphere` has roots 1 and 3. -/
def exRay : Ray := ⟨⟨0, 0, 0⟩, ⟨0, 0, -1⟩⟩

/-- Concrete example ray starting on the surface of `exSphere`. -/
def exRayOnSurface : Ray := ⟨⟨0, 0, -1⟩, ⟨0, 0, 1⟩⟩

/-- The record `Sphere::hit` produces for `exSphere` and `exRay` when the
root 1 is accepted. -/
def exRec : HitRecord := ⟨⟨0, 0, -1⟩, ⟨0, 0, 1⟩, 1, some true⟩

/-! ## Helper lemmas -/

namespace Vec3

theorem add_def (u v : Vec3) : u + v = ⟨u.x + v.x, u.y + v.y, u.z + v.z⟩ := rfl

theorem sub_def (u v : Vec3) : u - v = ⟨u.x - v.x, u.y - v.y, u.z - v.z⟩ := rfl

theorem neg_def (u : Vec3) : -u = ⟨-u.x, -u.y, -u.z⟩ := rfl

theorem smul_def (k : ℝ) (v : Vec3) : k * v = ⟨k * v.x, k * v.y, k * v.z⟩ := rfl

theorem div_vec_def (v : Vec3) (k : ℝ) : v / k = ⟨v.x / k, v.y / k, v.z / k⟩ := rfl

theorem smul_zero_vec (k : ℝ) : k * Vec3.zero = Vec3.zero := by
  simp [smul_def, zero]

/-- Squared length is nonnegative. -/
theorem length2_nonneg (v : Vec3) : 0 ≤ v.length2 := by
  unfold length2
  nlinarith [mul_self_nonneg v.x, mul_self_nonneg v.y, mul_self_nonneg v.z]

/-- A vector with zero squared length is the zero vector. -/
theorem eq_zero_of_length2_eq_zero {v : Vec3} (h : v.length2 = 0) : v = zero := by
  have h2 : v.x * v.x + v.y * v.y + v.z * v.z = 0 := h
  have hx : v.x = 0 := by nlinarith [mul_self_nonneg v.x, mul_self_nonneg v.y, mul_self_nonneg v.z]
  have hy : v.y = 0 := by nlinarith [mul_self_nonneg v.x, mul_self_nonneg v.y, mul_self_nonneg v.z]
  have hz : v.z = 0 := by nlinarith [mul_self_nonneg v.x, mul_self_nonneg v.y, mul_self_nonneg v.z]
  cases v
  simp only [zero]
  simp_all

/-- A nonzero vector has positive squared length. -/
theorem length2_pos_of_ne_zero {v : Vec3} (h : v ≠ zero) : 0 < v.length2 := by
  rcases lt_or_eq_of_le (length2_nonneg v) with h1 | h1
  · exact h1
  · exact absurd (eq_zero_of_length2_eq_zero h1.symm) h

theorem length2_neg (v : Vec3) : (-v).length2 = v.length2 := by
  simp [neg_def, length2]

theorem length_neg (v : Vec3) : (-v).length = v.length := by
  simp [length, length2_neg]

end Vec3

theorem INF_pos : 0 < INF := by
  unfold INF
  have : (2:ℝ) ^ 971 < 2 ^ 1024 := pow_lt_pow_right₀ (by norm_num) (by norm_num)
  linarith

namespace HitRecord

theorem new_point (p n : Vec3) (t : ℝ) (ray : Ray) : (HitRecord.new p n t ray).point = p := by
  unfold HitRecord.new; split <;> rfl

theorem new_t (p n : Vec3) (t : ℝ) (ray : Ray) : (HitRecord.new p n t ray).t = t := by
  unfold HitRecord.new; split <;> rfl

theorem new_normal (p n : Vec3) (t : ℝ) (ray : Ray) :
    (HitRecord.new p n t ray).normal = if ray.direction.dot n < 0 then n else -n := by
  unfold HitRecord.new
  by_cases hc : ray.direction.dot n < 0
  · simp [hc]
  · simp [hc]

theorem new_front_face (p n : Vec3) (t : ℝ) (ray : Ray) :
    (HitRecord.new p n t ray).front_face =
      if ray.direction.dot n < 0 then some true else some false := by
  unfold HitRecord.new
  by_cases hc : ray.direction.dot n < 0
  · simp [hc]
  · simp [hc]

end HitRecord

namespace Sphere

/-- Inversion principle for `Sphere::hit`: a returned record is the record of
one of the two candidate roots, that root is inside the interval, and the
discriminant is nonnegative. -/
theorem hit_eq_some_elim {s : Sphere} {ray : Ray} {bounds : Interval} {rec : HitRecord}
    (hh : s.hit ray bounds = some rec) :
    0 ≤ s.discriminant ray ∧
      ((rec = s.record ray (s.root1 ray) ∧ bounds.contains (s.root1 ray)) ∨
        (rec = s.record ray (s.root2 ray) ∧ bounds.contains (s.root2 ray))) := by
  unfold hit at hh
  split at hh
  · exact absurd hh (by simp)
  · rename_i hd
    split at hh
    · exact ⟨le_of_not_lt hd, Or.inl ⟨(Option.some_injective _ hh).symm, by assumption⟩⟩
    · split at hh
      · exact ⟨le_of_not_lt hd, Or.inr ⟨(Option.some_injective _ hh).symm, by assumption⟩⟩
      · exact absurd hh (by simp)

/-- The record of a root has that root as its `t` and `ray.at root` as its
hit point. -/
theorem record_t (s : Sphere) (ray : Ray) (root : ℝ) : (s.record ray root).t = root :=
  HitRecord.new_t _ _ _ _

theorem record_point (s : Sphere) (ray : Ray) (root : ℝ) :
    (s.record ray root).point = ray.at root :=
  HitRecord.new_point _ _ _ _

/-- Any record returned by `Sphere::hit` has its point at `ray.at t`,
and its `t` inside the interval. -/
theorem hit_point_at {s : Sphere} {ray : Ray} {bounds : Interval} {rec : HitRecord}
    (hh : s.hit ray bounds = some rec) :
    rec.point = ray.at rec.t ∧ bounds.contains rec.t := by
  rcases (hit_eq_some_elim hh).2 with ⟨hrec, hmem⟩ | ⟨hrec, hmem⟩ <;>
    subst hrec <;> simp [record_t, record_point, hmem]

/-- Expansion of the squared distance from a point of the ray to the sphere
center: the quadratic `a t² - 2 h t + (c + r²)`. -/
theorem at_sub_center_length2 (s : Sphere) (ray : Ray) (t : ℝ) :
    (ray.at t - s.center).length2 =
      s.a ray * (t * t) - 2 * s.h ray * t + (s.c ray + s.radius * s.radius) := by
  unfold Ray.at a h c Vec3.length2 Vec3.dot
  simp [Vec3.add_def, Vec3.sub_def, Vec3.smul_def]
  ring

/-- Both candidate roots satisfy the quadratic exactly when the direction is
nonzero and the discriminant is nonnegative: the hit point lies on the
sphere surface. -/
theorem root_on_surface {s : Sphere} {ray : Ray} {t : ℝ}
    (ha : s.a ray ≠ 0) (hd : 0 ≤ s.discriminant ray)
    (ht : t = s.root1 ray ∨ t = s.root2 ray) :
    (ray.at t - s.center).length2 = s.radius * s.radius := by
  have hsq : Real.sqrt (s.discriminant ray) * Real.sqrt (s.discriminant ray) =
      s.h ray * s.h ray - s.a ray * s.c ray := by
    rw [Real.mul_self_sqrt hd]; rfl
  rw [at_sub_center_length2]
  rcases ht with ht | ht
  · subst ht
    unfold root1
    field_simp
    ring_nf
    nlinarith [hsq]
  · subst ht
    unfold root2
    field_simp
    ring_nf
    nlinarith [hsq]

/-- A nonzero ray direction gives a nonzero quadratic leading coefficient. -/
theorem a_ne_zero {s : Sphere} {ray : Ray} (hd : ray.direction ≠ Vec3.zero) :
    s.a ray ≠ 0 :=
  ne_of_gt (Vec3.length2_pos_of_ne_zero hd)

/-- The smaller root never exceeds the larger root (the leading coefficient
`a` is a squared length, hence nonnegative; for `a = 0` both quotients are
0 under total real division). -/
theorem root1_le_root2 (s : Sphere) (ray : Ray) : s.root1 ray ≤ s.root2 ray := by
  unfold root1 root2
  have hnum : s.h ray - Real.sqrt (s.discriminant ray) ≤
      s.h ray + Real.sqrt (s.discriminant ray) := by
    have := Real.sqrt_nonneg (s.discriminant ray)
    linarith
  exact div_le_div_of_nonneg_right hnum (Vec3.length2_nonneg ray.direction)

theorem center_sub_origin (s : Sphere) (ray : Ray) :
    s.center - ray.origin = -(ray.origin - s.center) := by
  simp [Vec3.sub_def, Vec3.neg_def]

/-- On-surface origin makes the constant coefficient `c` vanish. -/
theorem c_eq_zero_of_on_surface {s : Sphere} {ray : Ray}
    (hsurf : (ray.origin - s.center).length2 = s.radius * s.radius) :
    s.c ray = 0 := by
  unfold c
  rw [center_sub_origin, Vec3.length2_neg, hsurf]
  ring

/-- A ray whose origin lies exactly on the sphere surface is reported as a
hit at parameter t = 0 by `Sphere::hit` over `Interval::positive()`. -/
theorem self_hit {s : Sphere} {ray : Ray}
    (hsurf : (ray.origin - s.center).length2 = s.radius * s.radius) :
    ∃ rec, s.hit ray Interval.positive = some rec ∧ rec.t = 0 := by
  have hc : s.c ray = 0 := c_eq_zero_of_on_surface hsurf
  have hdisc : s.discriminant ray = s.h ray * s.h ray := by
    unfold discriminant; rw [hc]; ring
  have hdn : ¬ s.discriminant ray < 0 := by
    rw [hdisc]; push_neg; exact mul_self_nonneg _
  have hsqrt : Real.sqrt (s.discriminant ray) = |s.h ray| := by
    rw [hdisc]; exact Real.sqrt_mul_self_eq_abs _
  have hcont0 : Interval.positive.contains 0 := by
    exact ⟨le_refl 0, INF_pos.le⟩
  by_cases ha : s.a ray = 0
  · have hr1 : s.root1 ray = 0 := by unfold root1; rw [ha]; simp
    refine ⟨s.record ray (s.root1 ray), ?_, by rw [record_t, hr1]⟩
    unfold hit
    rw [if_neg hdn, if_pos (by rw [hr1]; exact hcont0)]
  · have hapos : 0 < s.a ray :=
      lt_of_le_of_ne (Vec3.length2_nonneg ray.direction) (Ne.symm ha)
    rcases le_or_lt 0 (s.h ray) with hh | hh
    · have hr1 : s.root1 ray = 0 := by
        unfold root1; rw [hsqrt, abs_of_nonneg hh]; simp
      refine ⟨s.record ray (s.root1 ray), ?_, by rw [record_t, hr1]⟩
      unfold hit
      rw [if_neg hdn, if_pos (by rw [hr1]; exact hcont0)]
    · have hr1 : s.root1 ray = 2 * s.h ray / s.a ray := by
        unfold root1; rw [hsqrt, abs_of_neg hh]; ring_nf
      have hneg : s.root1 ray < 0 := by
        rw [hr1]; exact div_neg_of_neg_of_pos (by linarith) hapos
      have hncont : ¬ Interval.positive.contains (s.root1 ray) := by
        rintro ⟨hge, _⟩
        have : (0:ℝ) ≤ s.root1 ray := hge
        linarith
      have hr2 : s.root2 ray = 0 := by
        unfold root2; rw [hsqrt, abs_of_neg hh]; simp
      refine ⟨s.record ray (s.root2 ray), ?_, by rw [record_t, hr2]⟩
      unfold hit
      rw [if_neg hdn, if_neg hncont, if_pos (by rw [hr2]; exact hcont0)]

end Sphere

theorem candidateHits_cons (obj : Sphere) (rest : List Sphere) (ray : Ray) (bound : Interval) :
    candidateHits (obj :: rest) ray bound =
      match obj.hit ray bound with
      | some r => r :: candidateHits rest ray bound
      | none => candidateHits rest ray bound := by
  cases hobj : obj.hit ray bound <;> simp [candidateHits, List.filterMap_cons, hobj]

theorem hitLoop_cons (ray : Ray) (bound : Interval) (obj : Sphere) (rest : List Sphere)
    (ret : Option HitRecord) (closest : ℝ) :
    HittableList.hitLoop ray bound (obj :: rest) ret closest =
      match obj.hit ray bound with
      | some rec =>
        if closest > rec.t then HittableList.hitLoop ray bound rest (some rec) rec.t
        else HittableList.hitLoop ray bound rest ret closest
      | none => HittableList.hitLoop ray bound rest ret closest := rfl

/-- The scan of `HittableList::hit` returns nothing exactly when the initial
best is nothing and no candidate is strictly below the running bound. -/
theorem hitLoop_eq_none_iff (ray : Ray) (bound : Interval) (objs : List Sphere)
    (ret : Option HitRecord) (closest : ℝ) :
    HittableList.hitLoop ray bound objs ret closest = none ↔
      (ret = none ∧ ∀ rec ∈ candidateHits objs ray bound, closest ≤ rec.t) := by
  induction objs generalizing ret closest with
  | nil => simp [HittableList.hitLoop, candidateHits]
  | cons obj rest ih =>
    rw [hitLoop_cons, candidateHits_cons]
    cases hobj : obj.hit ray bound with
    | none => simp only []; rw [ih]
    | some r =>
      simp only []
      by_cases hlt : closest > r.t
      · rw [if_pos hlt, ih]
        constructor
        · rintro ⟨h1, _⟩; cases h1
        · rintro ⟨_, h2⟩
          have := h2 r (by simp)
          exact absurd hlt (not_lt.mpr this)
      · rw [if_neg hlt, ih]
        constructor
        · rintro ⟨h1, h2⟩
          refine ⟨h1, ?_⟩
          rintro rec hm
          rcases List.mem_cons.mp hm with rfl | hm2
          · exact not_lt.mp hlt
          · exact h2 rec hm2
        · rintro ⟨h1, h2⟩
          exact ⟨h1, fun rec hm => h2 rec (List.mem_cons_of_mem _ hm)⟩

/-- The scan of `HittableList::hit` returns a record only if it is the
initial best (and nothing improved on it) or a candidate strictly below the
running bound that is minimal among all candidates. -/
theorem hitLoop_eq_some (ray : Ray) (bound : Interval) (objs : List Sphere)
    (ret : Option HitRecord) (closest : ℝ) (rec : HitRecord)
    (hrun : HittableList.hitLoop ray bound objs ret closest = some rec) :
    (ret = some rec ∧ ∀ rec' ∈ candidateHits objs ray bound, closest ≤ rec'.t) ∨
      (rec ∈ candidateHits objs ray bound ∧ rec.t < closest ∧
        ∀ rec' ∈ candidateHits objs ray bound, rec.t ≤ rec'.t) := by
  induction objs generalizing ret closest with
  | nil =>
    left
    constructor
    · exact hrun
    · simp [candidateHits]
  | cons obj rest ih =>
    rw [hitLoop_cons] at hrun
    rw [candidateHits_cons]
    cases hobj : obj.hit ray bound with
    | none =>
      rw [hobj] at hrun
      simp only []
      exact ih _ _ hrun
    | some r =>
      rw [hobj] at hrun
      have hrun2 : (if closest > r.t then
          HittableList.hitLoop ray bound rest (some r) r.t
        else HittableList.hitLoop ray bound rest ret closest) = some rec := hrun
      clear hrun
      simp only []
      by_cases hlt : closest > r.t
      · rw [if_pos hlt] at hrun2
        rcases ih _ _ hrun2 with ⟨h1, h2⟩ | ⟨h1, h2, h3⟩
        · right
          have hr : r = rec := Option.some_injective _ h1
          subst hr
          refine ⟨by simp, hlt, ?_⟩
          rintro rec' hm
          rcases List.mem_cons.mp hm with rfl | hm2
          · exact le_refl _
          · exact h2 rec' hm2
        · right
          refine ⟨List.mem_cons_of_mem _ h1, lt_trans h2 hlt, ?_⟩
          rintro rec' hm
          rcases List.mem_cons.mp hm with rfl | hm2
          · exact le_of_lt h2
          · exact h3 rec' hm2
      · rw [if_neg hlt] at hrun2
        rcases ih _ _ hrun2 with ⟨h1, h2⟩ | ⟨h1, h2, h3⟩
        · left
          refine ⟨h1, ?_⟩
          rintro rec' hm
          rcases List.mem_cons.mp hm with rfl | hm2
          · exact not_lt.mp hlt
          · exact h2 rec' hm2
        · right
          refine ⟨List.mem_cons_of_mem _ h1, h2, ?_⟩
          rintro rec' hm
          rcases List.mem_cons.mp hm with rfl | hm2
          · exact le_of_lt (lt_of_lt_of_le h2 (not_lt.mp hlt))
          · exact h3 rec' hm2

/-- Narrowing the interval's max from `bound.max` to `closest ≤ bound.max`
filters the full-interval result of `Sphere::hit` by `rec.t ≤ closest`:
the narrowed test accepts exactly the full-interval record when its
parameter is within the narrowed max. -/
theorem Sphere.hit_narrow_some (s : Sphere) (ray : Ray) {bound : Interval}
    {closest : ℝ} (hcle : closest ≤ bound.max) (rec : HitRecord) :
    s.hit ray (Interval.new bound.min closest) = some rec ↔
      (s.hit ray bound = some rec ∧ rec.t ≤ closest) := by
  have hle12 := Sphere.root1_le_root2 s ray
  unfold Sphere.hit
  by_cases hd : s.discriminant ray < 0
  · rw [if_pos hd, if_pos hd]
    simp
  · rw [if_neg hd, if_neg hd]
    by_cases hn1 : (Interval.new bound.min closest).contains (s.root1 ray)
    · obtain ⟨hn1a, hn1b⟩ := hn1
      have hf1 : bound.contains (s.root1 ray) := ⟨hn1a, le_trans hn1b hcle⟩
      rw [if_pos ⟨hn1a, hn1b⟩, if_pos hf1]
      constructor
      · rintro hsome
        have := Option.some_injective _ hsome
        subst this
        exact ⟨rfl, by rw [Sphere.record_t]; exact hn1b⟩
      · rintro ⟨hsome, _⟩
        exact hsome
    · rw [if_neg hn1]
      by_cases hn2 : (Interval.new bound.min closest).contains (s.root2 ray)
      · obtain ⟨hn2a, hn2b⟩ := hn2
        have hr1lt : ¬ bound.min ≤ s.root1 ray := by
          intro hmin
          exact hn1 ⟨hmin, le_trans hle12 hn2b⟩
        have hf1 : ¬ bound.contains (s.root1 ray) := fun hc => hr1lt hc.1
        have hf2 : bound.contains (s.root2 ray) := ⟨hn2a, le_trans hn2b hcle⟩
        rw [if_pos ⟨hn2a, hn2b⟩, if_neg hf1, if_pos hf2]
        constructor
        · rintro hsome
          have := Option.some_injective _ hsome
          subst this
          exact ⟨rfl, by rw [Sphere.record_t]; exact hn2b⟩
        · rintro ⟨hsome, _⟩
          exact hsome
      · rw [if_neg hn2]
        constructor
        · rintro hcontra
          cases hcontra
        · rintro ⟨hsome, hrect⟩
          by_cases hf1 : bound.contains (s.root1 ray)
          · rw [if_pos hf1] at hsome
            have := Option.some_injective _ hsome
            subst this
            rw [Sphere.record_t] at hrect
            exact absurd ⟨hf1.1, hrect⟩ hn1
          · rw [if_neg hf1] at hsome
            by_cases hf2 : bound.contains (s.root2 ray)
            · rw [if_pos hf2] at hsome
              have := Option.some_injective _ hsome
              subst this
              rw [Sphere.record_t] at hrect
              exact absurd ⟨hf2.1, hrect⟩ hn2
            · rw [if_neg hf2] at hsome
              cases hsome

/-- The narrowed test misses exactly when the full-interval test misses or
its record's parameter exceeds the narrowed max. -/
theorem Sphere.hit_narrow_none (s : Sphere) (ray : Ray) {bound : Interval}
    {closest : ℝ} (hcle : closest ≤ bound.max)
    (hmiss : ∀ rec, s.hit ray bound = some rec → closest < rec.t) :
    s.hit ray (Interval.new bound.min closest) = none := by
  cases hnarrow : s.hit ray (Interval.new bound.min closest) with
  | none => rfl
  | some rec =>
    obtain ⟨hsome, hle⟩ := (Sphere.hit_narrow_some s ray hcle rec).mp hnarrow
    exact absurd hle (not_le.mpr (hmiss rec hsome))

/-- Unfolding of one step of the reference scan. -/
theorem referenceHitLoop_cons (ray : Ray) (minv : ℝ) (obj : Sphere)
    (rest : List Sphere) (ret : Option HitRecord) (closest : ℝ) :
    referenceHitLoop ray minv (obj :: rest) ret closest =
      match obj.hit ray (Interval.new minv closest) with
      | some rec => referenceHitLoop ray minv rest (some rec) rec.t
      | none => referenceHitLoop ray minv rest ret closest := rfl

/-- Loop-level agreement between the implemented scan (full interval plus
strict comparison) and the spec's narrowed-interval scan, valid as long as
no candidate parameter ties with the running bound. -/
theorem referenceHitLoop_eq_hitLoop (ray : Ray) (bound : Interval)
    (objs : List Sphere) (ret : Option HitRecord) (closest : ℝ)
    (hcle : closest ≤ bound.max)
    (hprop : ∀ rec ∈ candidateHits objs ray bound, rec.t < bound.max ∧ rec.t ≠ closest)
    (hpair : (candidateHits objs ray bound).Pairwise (fun r1 r2 => r1.t ≠ r2.t)) :
    referenceHitLoop ray bound.min objs ret closest =
      HittableList.hitLoop ray bound objs ret closest := by
  induction objs generalizing ret closest with
  | nil => rfl
  | cons obj rest ih =>
    rw [referenceHitLoop_cons, hitLoop_cons]
    rw [candidateHits_cons] at hprop hpair
    cases hobj : obj.hit ray bound with
    | none =>
      rw [hobj] at hprop hpair
      have hnarrow : obj.hit ray (Interval.new bound.min closest) = none :=
        Sphere.hit_narrow_none obj ray hcle (by intro rec hrec; rw [hobj] at hrec; cases hrec)
      rw [hnarrow]
      exact ih ret closest hcle hprop hpair
    | some r =>
      rw [hobj] at hprop hpair
      have hpair2 : List.Pairwise (fun r1 r2 => r1.t ≠ r2.t)
          (r :: candidateHits rest ray bound) := hpair
      have hprop2 : ∀ rec ∈ r :: candidateHits rest ray bound,
          rec.t < bound.max ∧ rec.t ≠ closest := hprop
      simp only [List.pairwise_cons] at hpair2
      obtain ⟨hhead, htail⟩ := hpair2
      obtain ⟨hrmax, hrne⟩ := hprop2 r (by simp)
      have hproptail : ∀ rec ∈ candidateHits rest ray bound,
          rec.t < bound.max ∧ rec.t ≠ closest :=
        fun rec hm => hprop2 rec (List.mem_cons_of_mem _ hm)
      by_cases hlt : closest > r.t
      · have hnarrow : obj.hit ray (Interval.new bound.min closest) = some r :=
          (Sphere.hit_narrow_some obj ray hcle r).mpr ⟨hobj, le_of_lt hlt⟩
        rw [hnarrow]
        show referenceHitLoop ray bound.min rest (some r) r.t =
          if closest > r.t then HittableList.hitLoop ray bound rest (some r) r.t
          else HittableList.hitLoop ray bound rest ret closest
        rw [if_pos hlt]
        refine ih (some r) r.t (le_of_lt hrmax) ?_ htail
        intro rec hm
        exact ⟨(hproptail rec hm).1, Ne.symm (hhead rec hm)⟩
      · have hgt : closest < r.t := lt_of_le_of_ne (not_lt.mp hlt) (Ne.symm hrne)
        have hnarrow : obj.hit ray (Interval.new bound.min closest) = none := by
          apply Sphere.hit_narrow_none obj ray hcle
          intro rec hrec
          rw [hobj] at hrec
          have := Option.some_injective _ hrec
          subst this
          exact hgt
        rw [hnarrow]
        show referenceHitLoop ray bound.min rest ret closest =
          if closest > r.t then HittableList.hitLoop ray bound rest (some r) r.t
          else HittableList.hitLoop ray bound rest ret closest
        rw [if_neg hlt]
        exact ih ret closest hcle hproptail htail

/-- `HittableList::hit` returns nothing exactly when no candidate hit lies
strictly below the interval's max. -/
theorem hit_eq_none_iff (objects : List Sphere) (ray : Ray) (bound : Interval) :
    HittableList.hit objects ray bound = none ↔
      ∀ rec ∈ candidateHits objects ray bound, bound.max ≤ rec.t := by
  unfold HittableList.hit
  rw [hitLoop_eq_none_iff]
  simp

/-- A record returned by `HittableList::hit` is a candidate, lies strictly
below the interval's max, and is minimal among all candidates. -/
theorem hit_eq_some_min {objects : List Sphere} {ray : Ray} {bound : Interval}
    {rec : HitRecord} (hrun : HittableList.hit objects ray bound = some rec) :
    rec ∈ candidateHits objects ray bound ∧ rec.t < bound.max ∧
      ∀ rec' ∈ candidateHits objects ray bound, rec.t ≤ rec'.t := by
  rcases hitLoop_eq_some ray bound objects none bound.max rec hrun with ⟨h1, _⟩ | hr
  · cases h1
  · exact hr

/-- `ray_color` at depth 0 is black. -/
theorem ray_color_zero (rand : ℕ → Vec3) (ray : Ray) (world : List Sphere) :
    Camera.ray_color rand ray world 0 = Vec3.zero := rfl

/-- `ray_color` at a successor depth when the scene is hit: recurse on the
bounce ray with the decremented budget, attenuated by 0.5. -/
theorem ray_color_succ_hit (rand : ℕ → Vec3) {ray : Ray} {world : List Sphere}
    {rec : HitRecord} (depth : ℕ)
    (hhit : HittableList.hit world ray Interval.positive = some rec) :
    Camera.ray_color rand ray world (depth + 1) =
      (0.5 : ℝ) * Camera.ray_color (fun n => rand (n + 1))
        ⟨rec.point, rec.normal + rand 0⟩ world depth := by
  show (match HittableList.hit world ray Interval.positive with
    | some rec =>
      (0.5 : ℝ) * Camera.ray_color (fun n => rand (n + 1))
        ⟨rec.point, rec.normal + rand 0⟩ world depth
    | none =>
      lerp ⟨1.0, 1.0, 1.0⟩ ⟨0.5, 0.7, 1.0⟩ (0.5 * (ray.direction.normal.y + 1.0))) =
      (0.5 : ℝ) * Camera.ray_color (fun n => rand (n + 1))
        ⟨rec.point, rec.normal + rand 0⟩ world depth
  rw [hhit]

/-- `ray_color` at a successor depth when nothing is hit: the vertical
background gradient from white to sky blue. -/
theorem ray_color_succ_miss (rand : ℕ → Vec3) {ray : Ray} {world : List Sphere}
    (depth : ℕ)
    (hmiss : HittableList.hit world ray Interval.positive = none) :
    Camera.ray_color rand ray world (depth + 1) =
      lerp ⟨1.0, 1.0, 1.0⟩ ⟨0.5, 0.7, 1.0⟩ (0.5 * (ray.direction.normal.y + 1.0)) := by
  show (match HittableList.hit world ray Interval.positive with
    | some rec =>
      (0.5 : ℝ) * Camera.ray_color (fun n => rand (n + 1))
        ⟨rec.point, rec.normal + rand 0⟩ world depth
    | none =>
      lerp ⟨1.0, 1.0, 1.0⟩ ⟨0.5, 0.7, 1.0⟩ (0.5 * (ray.direction.normal.y + 1.0))) =
      lerp ⟨1.0, 1.0, 1.0⟩ ⟨0.5, 0.7, 1.0⟩ (0.5 * (ray.direction.normal.y + 1.0))
  rw [hmiss]

/-- A candidate record comes from some owned object's `Sphere::hit`. -/
theorem candidate_mem_elim {objects : List Sphere} {ray : Ray} {bound : Interval}
    {rec : HitRecord} (hm : rec ∈ candidateHits objects ray bound) :
    ∃ s ∈ objects, s.hit ray bound = some rec := by
  simpa [candidateHits, List.mem_filterMap] using hm

/-- With a nonzero direction, any record returned by the scene hit lies on
the surface of one of the scene's spheres. -/
theorem hit_point_on_world_surface {world : List Sphere} {ray : Ray}
    {bound : Interval} {rec : HitRecord}
    (hrun : HittableList.hit world ray bound = some rec)
    (hd : ray.direction ≠ Vec3.zero) : onSphere world rec.point := by
  obtain ⟨hm, _, _⟩ := hit_eq_some_min hrun
  obtain ⟨s, hs, hhit⟩ := candidate_mem_elim hm
  obtain ⟨hdisc, hcase⟩ := Sphere.hit_eq_some_elim hhit
  refine ⟨s, hs, ?_⟩
  rcases hcase with ⟨hrec, _⟩ | ⟨hrec, _⟩
  · subst hrec
    rw [Sphere.record_point]
    exact Sphere.root_on_surface (Sphere.a_ne_zero hd) hdisc (Or.inl rfl)
  · subst hrec
    rw [Sphere.record_point]
    exact Sphere.root_on_surface (Sphere.a_ne_zero hd) hdisc (Or.inr rfl)

/-- With a zero direction, the hit point of any returned record is the ray
origin itself. -/
theorem hit_point_of_zero_direction {world : List Sphere} {ray : Ray}
    {bound : Interval} {rec : HitRecord}
    (hrun : HittableList.hit world ray bound = some rec)
    (hd : ray.direction = Vec3.zero) : rec.point = ray.origin := by
  obtain ⟨hm, _, _⟩ := hit_eq_some_min hrun
  obtain ⟨s, _, hhit⟩ := candidate_mem_elim hm
  obtain ⟨hpt, _⟩ := Sphere.hit_point_at hhit
  rw [hpt]
  unfold Ray.at
  rw [hd, Vec3.smul_zero_vec]
  cases hro : ray.origin
  simp [Vec3.add_def, Vec3.zero]

/-- An origin on some sphere of the scene guarantees the scene hit over
`Interval::positive()` returns a record. -/
theorem onSphere_hits {world : List Sphere} {ray : Ray}
    (hsurf : onSphere world ray.origin) :
    ∃ rec, HittableList.hit world ray Interval.positive = some rec := by
  obtain ⟨s, hs, hon⟩ := hsurf
  obtain ⟨rec0, hhit0, ht0⟩ := Sphere.self_hit hon
  have hm0 : rec0 ∈ candidateHits world ray Interval.positive := by
    simp only [candidateHits, List.mem_filterMap]
    exact ⟨s, hs, hhit0⟩
  cases hrun : HittableList.hit world ray Interval.positive with
  | some rec => exact ⟨rec, rfl⟩
  | none =>
    have := (hit_eq_none_iff world ray Interval.positive).mp hrun rec0 hm0
    rw [ht0] at this
    exact absurd this (not_le.mpr INF_pos)

/-- The returned record's point stays on the scene's spheres when the
origin does (whatever the direction). -/
theorem onSphere_preserved {world : List Sphere} {ray : Ray} {rec : HitRecord}
    (hsurf : onSphere world ray.origin)
    (hrun : HittableList.hit world ray Interval.positive = some rec) :
    onSphere world rec.point := by
  by_cases hd : ray.direction = Vec3.zero
  · rw [hit_point_of_zero_direction hrun hd]
    exact hsurf
  · exact hit_point_on_world_surface hrun hd

/-- Under exact real arithmetic, a ray whose origin lies on a sphere of the
scene always colors to black: the scene hit over `Interval::positive()`
(min 0, `contains` inclusive) reports a self-intersection at every level,
so the recursion always bottoms out at the depth-0 black. -/
theorem ray_color_black_of_onSphere (world : List Sphere) :
    ∀ (depth : ℕ) (rand : ℕ → Vec3) (ray : Ray),
      onSphere world ray.origin →
      Camera.ray_color rand ray world depth = Vec3.zero := by
  intro depth
  induction depth with
  | zero => intro rand ray _; rfl
  | succ d ih =>
    intro rand ray hsurf
    obtain ⟨rec, hhit⟩ := onSphere_hits hsurf
    have hsurf2 : onSphere world rec.point := onSphere_preserved hsurf hhit
    rw [ray_color_succ_hit rand d hhit,
      ih (fun n => rand (n + 1)) ⟨rec.point, rec.normal + rand 0⟩ hsurf2,
      Vec3.smul_zero_vec]

/-- The random stream never influences `Camera::ray_color` in the exact
model (for a nonzero primary direction): a hit leads to black regardless of
the bounce directions, and a miss is computed without randomness. -/
theorem ray_color_rand_irrelevant (r1 r2 : ℕ → Vec3) (ray : Ray)
    (world : List Sphere) (depth : ℕ) (hd : ray.direction ≠ Vec3.zero) :
    Camera.ray_color r1 ray world depth = Camera.ray_color r2 ray world depth := by
  cases depth with
  | zero => rfl
  | succ d =>
    cases hhit : HittableList.hit world ray Interval.positive with
    | none =>
      rw [ray_color_succ_miss r1 d hhit, ray_color_succ_miss r2 d hhit]
    | some rec =>
      have hsurf : onSphere world rec.point := hit_point_on_world_surface hhit hd
      rw [ray_color_succ_hit r1 d hhit, ray_color_succ_hit r2 d hhit,
        ray_color_black_of_onSphere world d (fun n => r1 (n + 1))
          ⟨rec.point, rec.normal + r1 0⟩ hsurf,
        ray_color_black_of_onSphere world d (fun n => r2 (n + 1))
          ⟨rec.point, rec.normal + r2 0⟩ hsurf]

/-! ## Concrete evaluations for the example inputs -/

theorem ex_a : exSphere.a exRay = 1 := by
  norm_num [Sphere.a, exRay, Vec3.length2]

theorem ex_h : exSphere.h exRay = 2 := by
  norm_num [Sphere.h, exSphere, exRay, Vec3.sub_def, Vec3.dot]

theorem ex_c : exSphere.c exRay = 3 := by
  norm_num [Sphere.c, exSphere, exRay, Vec3.sub_def, Vec3.length2]

theorem ex_disc : exSphere.discriminant exRay = 1 := by
  rw [Sphere.discriminant, ex_a, ex_h, ex_c]
  norm_num

theorem ex_root1 : exSphere.root1 exRay = 1 := by
  rw [Sphere.root1, ex_a, ex_h, ex_disc]
  norm_num

theorem ex_root2 : exSphere.root2 exRay = 3 := by
  rw [Sphere.root2, ex_a, ex_h, ex_disc]
  norm_num

theorem ex_record : exSphere.record exRay 1 = exRec := by
  unfold Sphere.record HitRecord.new Ray.at
  norm_num [exSphere, exRay, exRec, Vec3.sub_def, Vec3.add_def, Vec3.smul_def,
    Vec3.div_vec_def, Vec3.dot]

theorem ex_hit1 : exSphere.hit exRay (Interval.new 0 1) = some exRec := by
  have h1 : ¬ exSphere.discriminant exRay < 0 := by rw [ex_disc]; norm_num
  have h2 : (Interval.new 0 1).contains (exSphere.root1 exRay) := by
    rw [ex_root1]
    show (0:ℝ) ≤ 1 ∧ (1:ℝ) ≤ 1
    norm_num
  unfold Sphere.hit
  rw [if_neg h1, if_pos h2, ex_root1, ex_record]

theorem ex_hit3 : exSphere.hit exRay (Interval.new 0 3) = some exRec := by
  have h1 : ¬ exSphere.discriminant exRay < 0 := by rw [ex_disc]; norm_num
  have h2 : (Interval.new 0 3).contains (exSphere.root1 exRay) := by
    rw [ex_root1]
    show (0:ℝ) ≤ 1 ∧ (1:ℝ) ≤ 3
    norm_num
  unfold Sphere.hit
  rw [if_neg h1, if_pos h2, ex_root1, ex_record]

theorem ex_list_hit1 : HittableList.hit [exSphere] exRay (Interval.new 0 1) = none := by
  unfold HittableList.hit
  rw [hitLoop_cons, ex_hit1]
  show (if (Interval.new 0 1).max > exRec.t then
      HittableList.hitLoop exRay (Interval.new 0 1) [] (some exRec) exRec.t
    else HittableList.hitLoop exRay (Interval.new 0 1) [] none (Interval.new 0 1).max) = none
  rw [if_neg (by norm_num [Interval.new, exRec])]
  rfl

theorem ex_list_hit3 :
    HittableList.hit [exSphere] exRay (Interval.new 0 3) = some exRec := by
  unfold HittableList.hit
  rw [hitLoop_cons, ex_hit3]
  show (if (Interval.new 0 3).max > exRec.t then
      HittableList.hitLoop exRay (Interval.new 0 3) [] (some exRec) exRec.t
    else HittableList.hitLoop exRay (Interval.new 0 3) [] none (Interval.new 0 3).max) =
      some exRec
  rw [if_pos (by norm_num [Interval.new, exRec])]
  rfl

theorem ex_ref_hit1 : referenceHit [exSphere] exRay (Interval.new 0 1) = some exRec := by
  unfold referenceHit
  rw [referenceHitLoop_cons]
  have hiv : Interval.new (Interval.new 0 1).min (Interval.new 0 1).max =
      Interval.new 0 1 := rfl
  rw [hiv, ex_hit1]
  rfl

theorem ex0_a : exSphere0.a exRay = 1 := by
  norm_num [Sphere.a, exRay, Vec3.length2]

theorem ex0_h : exSphere0.h exRay = 2 := by
  norm_num [Sphere.h, exSphere0, exRay, Vec3.sub_def, Vec3.dot]

theorem ex0_c : exSphere0.c exRay = 4 := by
  norm_num [Sphere.c, exSphere0, exRay, Vec3.sub_def, Vec3.length2]

theorem ex0_disc : exSphere0.discriminant exRay = 0 := by
  rw [Sphere.discriminant, ex0_a, ex0_h, ex0_c]
  norm_num

theorem ex0_root1 : exSphere0.root1 exRay = 2 := by
  rw [Sphere.root1, ex0_a, ex0_h, ex0_disc]
  norm_num

theorem ex0_hit :
    exSphere0.hit exRay (Interval.new 0 10) = some (exSphere0.record exRay 2) := by
  have h1 : ¬ exSphere0.discriminant exRay < 0 := by rw [ex0_disc]; norm_num
  have h2 : (Interval.new 0 10).contains (exSphere0.root1 exRay) := by
    rw [ex0_root1]
    show (0:ℝ) ≤ 2 ∧ (2:ℝ) ≤ 10
    norm_num
  unfold Sphere.hit
  rw [if_neg h1, if_pos h2, ex0_root1]

theorem ex0_normal_length : (exSphere0.record exRay 2).normal.length = 0 := by
  unfold Sphere.record HitRecord.new Ray.at
  norm_num [exSphere0, exRay, Vec3.sub_def, Vec3.add_def, Vec3.smul_def,
    Vec3.div_vec_def, Vec3.dot, Vec3.neg_def, Vec3.length, Vec3.length2,
    Real.sqrt_zero]

theorem exRay_direction_ne_zero : exRay.direction ≠ Vec3.zero := by
  simp only [exRay, Vec3.zero, ne_eq, Vec3.mk.injEq]
  norm_num

theorem exRayOnSurface_direction_ne_zero : exRayOnSurface.direction ≠ Vec3.zero := by
  simp only [exRayOnSurface, Vec3.zero, ne_eq, Vec3.mk.injEq]
  norm_num

theorem exRayOnSurface_on_exSphere :
    (exRayOnSurface.origin - exSphere.center).length2 = exSphere.radius * exSphere.radius := by
  norm_num [exRayOnSurface, exSphere, Vec3.sub_def, Vec3.length2]

/-- Squared length scales with the square of the scalar divisor (valid for
the divisor 0 as well, where both sides vanish under total division). -/
theorem Vec3.length2_div_scalar (v : Vec3) (k : ℝ) :
    (v / k).length2 = v.length2 / (k * k) := by
  simp only [Vec3.div_vec_def, Vec3.length2]
  ring

/-- For a sphere of positive radius and a nonzero ray direction, any record
returned by `Sphere::hit` stores a unit-length normal. -/
theorem sphere_hit_unit_normal {s : Sphere} {ray : Ray} {bounds : Interval}
    {rec : HitRecord} (hr : 0 < s.radius) (hd : ray.direction ≠ Vec3.zero)
    (hhit : s.hit ray bounds = some rec) : rec.normal.length = 1 := by
  obtain ⟨hdisc, hcase⟩ := Sphere.hit_eq_some_elim hhit
  have key : ∀ root, (root = s.root1 ray ∨ root = s.root2 ray) →
      (s.record ray root).normal.length = 1 := by
    intro root hroot
    have hsurf : (ray.at root - s.center).length2 = s.radius * s.radius :=
      Sphere.root_on_surface (Sphere.a_ne_zero hd) hdisc hroot
    have hlen2 : ((ray.at root - s.center) / s.radius).length2 = 1 := by
      rw [Vec3.length2_div_scalar, hsurf]
      field_simp
    unfold Sphere.record
    rw [HitRecord.new_normal]
    by_cases hc : ray.direction.dot ((ray.at root - s.center) / s.radius) < 0
    · rw [if_pos hc]
      unfold Vec3.length
      rw [hlen2]
      exact Real.sqrt_one
    · rw [if_neg hc]
      rw [Vec3.length_neg]
      unfold Vec3.length
      rw [hlen2]
      exact Real.sqrt_one
  rcases hcase with ⟨hrec, _⟩ | ⟨hrec, _⟩
  · subst hrec; exact key _ (Or.inl rfl)
  · subst hrec; exact key _ (Or.inr rfl)

/-- The clamp of `write_color` keeps every value inside `[0, 0.999]`. -/
theorem write_clamp_mem (v : ℝ) :
    0 ≤ (Interval.new 0 0.999).clamp v ∧ (Interval.new 0 0.999).clamp v ≤ 0.999 := by
  show 0 ≤ (if v < (0:ℝ) then (0:ℝ) else if v > (0.999:ℝ) then (0.999:ℝ) else v) ∧
    (if v < (0:ℝ) then (0:ℝ) else if v > (0.999:ℝ) then (0.999:ℝ) else v) ≤ 0.999
  split_ifs with h1 h2
  · norm_num
  · norm_num
  · constructor
    · exact not_lt.mp h1
    · exact not_lt.mp h2

/-- Every integer channel emitted by `write_color` lies in `[0, 255]`. -/
theorem write_floor_bounds (x : ℝ) :
    0 ≤ ⌊(255:ℝ) * (Interval.new 0 0.999).clamp x⌋ ∧
      ⌊(255:ℝ) * (Interval.new 0 0.999).clamp x⌋ ≤ 255 := by
  obtain ⟨h0, h1⟩ := write_clamp_mem x
  constructor
  · exact Int.floor_nonneg.mpr (by nlinarith)
  · have hlt : ⌊(255:ℝ) * (Interval.new 0 0.999).clamp x⌋ < 256 := by
      rw [Int.floor_lt]
      push_cast
      nlinarith
    omega

/-- `ray_bounces` at a successor depth when the scene is hit. -/
theorem ray_bounces_succ_hit (rand : ℕ → Vec3) {ray : Ray} {world : List Sphere}
    {rec : HitRecord} (depth : ℕ)
    (hhit : HittableList.hit world ray Interval.positive = some rec) :
    Camera.ray_bounces rand ray world (depth + 1) =
      1 + Camera.ray_bounces (fun n => rand (n + 1))
        ⟨rec.point, rec.normal + rand 0⟩ world depth := by
  show (match HittableList.hit world ray Interval.positive with
    | some rec =>
      1 + Camera.ray_bounces (fun n => rand (n + 1))
        ⟨rec.point, rec.normal + rand 0⟩ world depth
    | none => 0) =
      1 + Camera.ray_bounces (fun n => rand (n + 1))
        ⟨rec.point, rec.normal + rand 0⟩ world depth
  rw [hhit]

/-- `ray_bounces` at a successor depth when nothing is hit. -/
theorem ray_bounces_succ_miss (rand : ℕ → Vec3) {ray : Ray} {world : List Sphere}
    (depth : ℕ)
    (hmiss : HittableList.hit world ray Interval.positive = none) :
    Camera.ray_bounces rand ray world (depth + 1) = 0 := by
  show (match HittableList.hit world ray Interval.positive with
    | some rec =>
      1 + Camera.ray_bounces (fun n => rand (n + 1))
        ⟨rec.point, rec.normal + rand 0⟩ world depth
    | none => 0) = 0
  rw [hmiss]

/-- The number of bounces performed never exceeds the depth budget. -/
theorem ray_bounces_le (depth : ℕ) :
    ∀ (rand : ℕ → Vec3) (ray : Ray) (world : List Sphere),
      Camera.ray_bounces rand ray world depth ≤ depth := by
  induction depth with
  | zero => intro rand ray world; exact Nat.le.refl
  | succ d ih =>
    intro rand ray world
    cases hhit : HittableList.hit world ray Interval.positive with
    | some rec =>
      rw [ray_bounces_succ_hit rand d hhit]
      have := ih (fun n => rand (n + 1)) ⟨rec.point, rec.normal + rand 0⟩ world
      omega
    | none =>
      rw [ray_bounces_succ_miss rand d hhit]
      omega

/-! ## Claim theorems -/

/-- C1, counterexample: with one sphere whose accepted intersection
parameter t = 1 lies inside the closed interval [0, 1] (`contains` is
inclusive), the object itself reports the hit but `HittableList::hit`
returns nothing, because its strict comparison `closest > rec.t` rejects a
hit at exactly the interval's max. -/
theorem C1_counterexample :
    exSphere.hit exRay (Interval.new 0 1) = some exRec ∧
    (Interval.new 0 1).contains exRec.t ∧
    HittableList.hit [exSphere] exRay (Interval.new 0 1) = none := by
  refine ⟨ex_hit1, ?_, ex_list_hit1⟩
  show (0:ℝ) ≤ 1 ∧ (1:ℝ) ≤ 1
  norm_num

/-- C1, amended: `HittableList::hit` returns nothing exactly when no owned
object's hit parameter lies strictly below the interval's max; otherwise it
returns a record whose t is the minimal hit parameter among all owned
objects' hits within the interval (so hits exactly at the interval max are
never returned), independently of insertion order. -/
theorem C1_nearest_hit (objects : List Sphere) (ray : Ray) (bound : Interval) :
    (HittableList.hit objects ray bound = none ↔
      ∀ rec ∈ candidateHits objects ray bound, bound.max ≤ rec.t) ∧
    (∀ rec, HittableList.hit objects ray bound = some rec →
      rec ∈ candidateHits objects ray bound ∧ rec.t < bound.max ∧
        ∀ rec' ∈ candidateHits objects ray bound, rec.t ≤ rec'.t) :=
  ⟨hit_eq_none_iff objects ray bound, fun _ hrun => hit_eq_some_min hrun⟩

/-- C1, witness: the nearest-hit theorem instantiated at the one-sphere
scene over the interval [0, 3], where the hit at t = 1 is returned. -/
theorem C1_witness :
    exRec ∈ candidateHits [exSphere] exRay (Interval.new 0 3) ∧
      exRec.t < (Interval.new 0 3).max :=
  ⟨((C1_nearest_hit [exSphere] exRay (Interval.new 0 3)).2 exRec ex_list_hit3).1,
    ((C1_nearest_hit [exSphere] exRay (Interval.new 0 3)).2 exRec ex_list_hit3).2.1⟩

/-- C2: `Sphere::hit` computes the half-coefficient quadratic
a = d·d, h = d·(C−Q), c = |C−Q|² − r², Δ = h² − a·c; a negative
discriminant yields no hit; otherwise the smaller root (h−√Δ)/a is accepted
if inside the interval, else the larger root (h+√Δ)/a if inside, else no
hit; any returned record carries the accepted root as its t. -/
theorem C2_sphere_hit_roots (s : Sphere) (ray : Ray) (bounds : Interval) :
    s.a ray = ray.direction.dot ray.direction ∧
    s.h ray = ray.direction.dot (s.center - ray.origin) ∧
    s.c ray = (s.center - ray.origin).length2 - s.radius * s.radius ∧
    s.discriminant ray = s.h ray * s.h ray - s.a ray * s.c ray ∧
    s.root1 ray = (s.h ray - Real.sqrt (s.discriminant ray)) / s.a ray ∧
    s.root2 ray = (s.h ray + Real.sqrt (s.discriminant ray)) / s.a ray ∧
    (s.discriminant ray < 0 → s.hit ray bounds = none) ∧
    (0 ≤ s.discriminant ray →
      ((bounds.contains (s.root1 ray) →
          (s.hit ray bounds).map HitRecord.t = some (s.root1 ray)) ∧
        (¬ bounds.contains (s.root1 ray) → bounds.contains (s.root2 ray) →
          (s.hit ray bounds).map HitRecord.t = some (s.root2 ray)) ∧
        (¬ bounds.contains (s.root1 ray) → ¬ bounds.contains (s.root2 ray) →
          s.hit ray bounds = none))) := by
  refine ⟨rfl, rfl, rfl, rfl, rfl, rfl, ?_, ?_⟩
  · intro hneg
    unfold Sphere.hit
    rw [if_pos hneg]
  · intro hnn
    refine ⟨?_, ?_, ?_⟩
    · intro h1
      unfold Sphere.hit
      rw [if_neg (not_lt.mpr hnn), if_pos h1]
      simp [Sphere.record_t]
    · intro h1 h2
      unfold Sphere.hit
      rw [if_neg (not_lt.mpr hnn), if_neg h1, if_pos h2]
      simp [Sphere.record_t]
    · intro h1 h2
      unfold Sphere.hit
      rw [if_neg (not_lt.mpr hnn), if_neg h1, if_neg h2]

/-- C2, witness: at the example sphere and ray the discriminant is
nonnegative, the smaller root lies inside [0, 3] and is returned as the
record's t. -/
theorem C2_witness :
    (0:ℝ) ≤ exSphere.discriminant exRay ∧
      (exSphere.hit exRay (Interval.new 0 3)).map HitRecord.t =
        some (exSphere.root1 exRay) := by
  have hnn : (0:ℝ) ≤ exSphere.discriminant exRay := by rw [ex_disc]; norm_num
  have hcont : (Interval.new 0 3).contains (exSphere.root1 exRay) := by
    rw [ex_root1]
    show (0:ℝ) ≤ 1 ∧ (1:ℝ) ≤ 3
    norm_num
  exact ⟨hnn,
    ((C2_sphere_hit_roots exSphere exRay (Interval.new 0 3)).2.2.2.2.2.2.2 hnn).1 hcont⟩

/-- C3: `Camera::ray_color` returns black at depth 0; on a hit within
`Interval::positive()` it returns 0.5 times the recursive color of the
bounce ray from the hit point in the direction normal + random unit
vector, at depth − 1; on a miss it returns the background
lerp(white, blue, 0.5 * (unit_direction.y + 1)). -/
theorem C3_ray_color_cases (rand : ℕ → Vec3) (ray : Ray) (world : List Sphere) :
    Camera.ray_color rand ray world 0 = Vec3.zero ∧
    (∀ (depth : ℕ) (rec : HitRecord),
      HittableList.hit world ray Interval.positive = some rec →
      Camera.ray_color rand ray world (depth + 1) =
        (0.5 : ℝ) * Camera.ray_color (fun n => rand (n + 1))
          ⟨rec.point, rec.normal + rand 0⟩ world depth) ∧
    (∀ depth : ℕ,
      HittableList.hit world ray Interval.positive = none →
      Camera.ray_color rand ray world (depth + 1) =
        lerp ⟨1.0, 1.0, 1.0⟩ ⟨0.5, 0.7, 1.0⟩ (0.5 * (ray.direction.normal.y + 1.0))) :=
  ⟨ray_color_zero rand ray world,
    fun depth _ hhit => ray_color_succ_hit rand depth hhit,
    fun depth hmiss => ray_color_succ_miss rand depth hmiss⟩

/-- C3, witness: in an empty scene the example ray (unit direction with
y = 0) is colored with the background gradient at t = 0.5, namely
(0.75, 0.85, 1.0). -/
theorem C3_witness :
    Camera.ray_color (fun _ => Vec3.zero) exRay [] 1 = ⟨0.75, 0.85, 1.0⟩ := by
  have hmiss : HittableList.hit [] exRay Interval.positive = none := rfl
  rw [(C3_ray_color_cases (fun _ => Vec3.zero) exRay []).2.2 0 hmiss]
  norm_num [lerp, exRay, Vec3.normal, Vec3.length, Vec3.length2, Vec3.smul_def,
    Vec3.add_def, Vec3.div_vec_def, Real.sqrt_one]

/-- C4, counterexample: on the one-sphere scene with interval [0, 1] the
implemented scan returns nothing while the spec's narrowed-interval
reference scan returns the record at t = 1, so the two differ. -/
theorem C4_counterexample :
    HittableList.hit [exSphere] exRay (Interval.new 0 1) = none ∧
    referenceHit [exSphere] exRay (Interval.new 0 1) = some exRec ∧
    HittableList.hit [exSphere] exRay (Interval.new 0 1) ≠
      referenceHit [exSphere] exRay (Interval.new 0 1) := by
  refine ⟨ex_list_hit1, ex_ref_hit1, ?_⟩
  rw [ex_list_hit1, ex_ref_hit1]
  simp

/-- C4, amended: `HittableList::hit` tests every object against the full
unchanged interval and keeps a record only when its t is strictly below the
running closest (initialized to the interval's max); it coincides with the
spec's narrowed-interval reference scan on every input whose candidate hit
parameters are pairwise distinct and all strictly below the interval's
max. -/
theorem C4_strict_scan_refinement (objects : List Sphere) (ray : Ray) (bound : Interval)
    (hpair : (candidateHits objects ray bound).Pairwise (fun r1 r2 => r1.t ≠ r2.t))
    (hlt : ∀ rec ∈ candidateHits objects ray bound, rec.t < bound.max) :
    HittableList.hit objects ray bound = referenceHit objects ray bound := by
  unfold HittableList.hit referenceHit
  exact (referenceHitLoop_eq_hitLoop ray bound objects none bound.max (le_refl _)
    (fun rec hm => ⟨hlt rec hm, ne_of_lt (hlt rec hm)⟩) hpair).symm

/-- C4, witness: on the one-sphere scene over [0, 3] (single candidate at
t = 1 < 3) the implemented scan and the reference scan agree. -/
theorem C4_witness :
    HittableList.hit [exSphere] exRay (Interval.new 0 3) =
      referenceHit [exSphere] exRay (Interval.new 0 3) := by
  have hcand : candidateHits [exSphere] exRay (Interval.new 0 3) = [exRec] := by
    simp [candidateHits, ex_hit3]
  apply C4_strict_scan_refinement
  · rw [hcand]
    exact List.pairwise_singleton _ _
  · intro rec hm
    rw [hcand] at hm
    simp only [List.mem_singleton] at hm
    subst hm
    show (1:ℝ) < 3
    norm_num

/-- C5, counterexample: a radius-0 sphere (legal, the constructor clamps
negative radii to 0) is hit by the example ray at t = 2, and the stored
normal of the returned record has length 0, not unit length. -/
theorem C5_counterexample :
    exSphere0.hit exRay (Interval.new 0 10) = some (exSphere0.record exRay 2) ∧
    (exSphere0.record exRay 2).normal.length = 0 ∧ (0:ℝ) ≠ 1 :=
  ⟨ex0_hit, ex0_normal_length, by norm_num⟩

/-- C5, amended: `HitRecord::new` stores front_face = true iff
direction · outward_normal < 0, stores the outward normal when front_face
and its negation otherwise; and every record returned by `Sphere::hit` for
a sphere of positive radius and a ray with nonzero direction stores a
unit-length normal. -/
theorem C5_hit_record_orientation (point outward : Vec3) (t : ℝ) (ray : Ray) :
    ((HitRecord.new point outward t ray).front_face = some true ↔
      ray.direction.dot outward < 0) ∧
    (ray.direction.dot outward < 0 →
      (HitRecord.new point outward t ray).normal = outward) ∧
    (¬ ray.direction.dot outward < 0 →
      (HitRecord.new point outward t ray).normal = -outward) ∧
    (∀ (s : Sphere) (bounds : Interval) (rec : HitRecord),
      0 < s.radius → ray.direction ≠ Vec3.zero → s.hit ray bounds = some rec →
      rec.normal.length = 1) := by
  refine ⟨?_, ?_, ?_, ?_⟩
  · rw [HitRecord.new_front_face]
    by_cases hc : ray.direction.dot outward < 0
    · simp [hc]
    · simp [hc]
  · intro hc
    rw [HitRecord.new_normal, if_pos hc]
  · intro hc
    rw [HitRecord.new_normal, if_neg hc]
  · intro s bounds rec hr hd hhit
    exact sphere_hit_unit_normal hr hd hhit

/-- C5, witness: the example record is front-facing and carries a
unit-length normal. -/
theorem C5_witness :
    (HitRecord.new ⟨0, 0, -1⟩ ⟨0, 0, 1⟩ 1 exRay).front_face = some true ∧
      exRec.normal.length = 1 := by
  constructor
  · apply (C5_hit_record_orientation ⟨0, 0, -1⟩ ⟨0, 0, 1⟩ 1 exRay).1.mpr
    norm_num [exRay, Vec3.dot]
  · exact (C5_hit_record_orientation ⟨0, 0, -1⟩ ⟨0, 0, 1⟩ 1 exRay).2.2.2
      exSphere (Interval.new 0 3) exRec (by norm_num [exSphere])
      exRay_direction_ne_zero ex_hit3

/-- C6: with the jitter offset fixed at (0,0), `Camera::get_ray` starts at
the camera center and `ray.at(1)` is exactly the pixel-center point
upper_left_pixel + u·delta_u + v·delta_v, where upper_left_pixel is
center − (0,0,focal_length) − (viewport_u + viewport_v)/2
+ (delta_u + delta_v)/2. -/
theorem C6_get_ray_pixel_center (cam : Camera) (u v : ℤ) :
    (cam.get_ray u v Vec3.zero).origin = cam.center ∧
    (cam.get_ray u v Vec3.zero).at 1 =
      cam.upper_left_pixel + ((u:ℝ) * cam.delta_u + (v:ℝ) * cam.delta_v) ∧
    cam.upper_left_pixel =
      cam.center - ⟨0, 0, cam.focal_length⟩
        - (0.5 : ℝ) * (cam.viewport_u + cam.viewport_v)
        + (0.5 : ℝ) * (cam.delta_u + cam.delta_v) := by
  refine ⟨rfl, ?_, rfl⟩
  show cam.center + (1:ℝ) * ((cam.upper_left_pixel +
      (((u:ℝ) + Vec3.zero.x) * cam.delta_u + ((v:ℝ) + Vec3.zero.y) * cam.delta_v))
        - cam.center) =
    cam.upper_left_pixel + ((u:ℝ) * cam.delta_u + (v:ℝ) * cam.delta_v)
  simp only [Vec3.zero, Vec3.add_def, Vec3.sub_def, Vec3.smul_def, Vec3.mk.injEq]
  refine ⟨by ring, by ring, by ring⟩

/-- C7: linear_to_gamma is 0 for nonpositive inputs, the square root for
positive inputs, strictly increasing on (0,1]; write_color emits the
truncation of 255 times the [0, 0.999]-clamped gamma value of each channel,
and every emitted channel lies in [0, 255]. -/
theorem C7_gamma_write_color :
    (∀ x : ℝ, x ≤ 0 → linear_to_gamma x = 0) ∧
    (∀ x : ℝ, 0 < x → linear_to_gamma x = Real.sqrt x) ∧
    (∀ x y : ℝ, 0 < x → x < y → y ≤ 1 → linear_to_gamma x < linear_to_gamma y) ∧
    (∀ c : Color,
      write_color c =
        (⌊(255:ℝ) * (Interval.new 0 0.999).clamp (linear_to_gamma c.x)⌋,
          ⌊(255:ℝ) * (Interval.new 0 0.999).clamp (linear_to_gamma c.y)⌋,
          ⌊(255:ℝ) * (Interval.new 0 0.999).clamp (linear_to_gamma c.z)⌋) ∧
        (0 ≤ (write_color c).1 ∧ (write_color c).1 ≤ 255) ∧
        (0 ≤ (write_color c).2.1 ∧ (write_color c).2.1 ≤ 255) ∧
        (0 ≤ (write_color c).2.2 ∧ (write_color c).2.2 ≤ 255)) := by
  refine ⟨?_, ?_, ?_, ?_⟩
  · intro x hx
    unfold linear_to_gamma
    rw [if_neg (not_lt.mpr hx)]
  · intro x hx
    unfold linear_to_gamma
    rw [if_pos hx]
  · intro x y hx hxy _
    unfold linear_to_gamma
    rw [if_pos hx, if_pos (lt_trans hx hxy)]
    exact Real.sqrt_lt_sqrt (le_of_lt hx) hxy
  · intro c
    refine ⟨rfl, ?_, ?_, ?_⟩
    · exact write_floor_bounds (linear_to_gamma c.x)
    · exact write_floor_bounds (linear_to_gamma c.y)
    · exact write_floor_bounds (linear_to_gamma c.z)

/-- C7, witness: the gamma transform evaluated at -1, 1/4 and 1. -/
theorem C7_witness :
    linear_to_gamma (-1) = 0 ∧
      linear_to_gamma (1/4 : ℝ) = Real.sqrt (1/4 : ℝ) ∧
      linear_to_gamma (1/4 : ℝ) < linear_to_gamma 1 :=
  ⟨C7_gamma_write_color.1 (-1) (by norm_num),
    C7_gamma_write_color.2.1 (1/4) (by norm_num),
    C7_gamma_write_color.2.2.1 (1/4) 1 (by norm_num) (by norm_num) (by norm_num)⟩

/-- C8: with the jitter offset fixed at (0,0), the per-sample color of a
pixel (which with sample_per_pixel = 1 is the pixel's color) does not
depend on the stream of random bounce vectors: two runs with different
ambient randomness produce identical output (in the exact-real model, every
ray that hits the scene colors to black because of the t = 0
self-intersection, and rays that miss are colored without randomness). -/
theorem C8_render_deterministic (cam : Camera) (world : List Sphere) (u v : ℤ)
    (depth : ℕ) (r1 r2 : ℕ → Vec3)
    (hd : (cam.get_ray u v Vec3.zero).direction ≠ Vec3.zero) :
    Camera.ray_color r1 (cam.get_ray u v Vec3.zero) world depth =
      Camera.ray_color r2 (cam.get_ray u v Vec3.zero) world depth :=
  ray_color_rand_irrelevant r1 r2 _ world depth hd

/-- C8, witness: a concrete camera (focal length 1, 2x2 viewport and
image), pixel (0,0), depth 2 and two different random streams yield the
same color on the one-sphere scene. -/
theorem C8_witness :
    Camera.ray_color (fun _ => ⟨0, 0, 1⟩)
        ((Camera.mk 1 ⟨0, 0, 0⟩ 2 2 2 2).get_ray 0 0 Vec3.zero) [exSphere] 2 =
      Camera.ray_color (fun _ => ⟨1, 0, 0⟩)
        ((Camera.mk 1 ⟨0, 0, 0⟩ 2 2 2 2).get_ray 0 0 Vec3.zero) [exSphere] 2 := by
  apply C8_render_deterministic
  have hdir : ((Camera.mk 1 ⟨0, 0, 0⟩ 2 2 2 2).get_ray 0 0 Vec3.zero).direction =
      ⟨-0.5, 0.5, -1⟩ := by
    norm_num [Camera.get_ray, Camera.upper_left_pixel, Camera.upper_left_viewport,
      Camera.delta_u, Camera.delta_v, Camera.viewport_u, Camera.viewport_v,
      Vec3.zero, Vec3.add_def, Vec3.sub_def, Vec3.smul_def, Vec3.div_vec_def]
  rw [hdir]
  simp only [Vec3.zero, ne_eq, Vec3.mk.injEq]
  norm_num

/-- C9: the recursion of `Camera::ray_color` is bounded by the depth
budget: at most `depth` bounces are performed, and the depth-0 terminal
case returns black. -/
theorem C9_depth_budget (rand : ℕ → Vec3) (ray : Ray) (world : List Sphere)
    (depth : ℕ) :
    Camera.ray_bounces rand ray world depth ≤ depth ∧
      Camera.ray_color rand ray world 0 = Vec3.zero :=
  ⟨ray_bounces_le depth rand ray world, rfl⟩

/-- C10: `Interval::contains` is inclusive at both endpoints,
`Interval::positive()` has min 0, and a ray with nonzero direction whose
origin lies exactly on a sphere's surface is reported by `Sphere::hit`
over `Interval::positive()` as hitting that sphere again at t = 0. -/
theorem C10_self_intersection :
    Interval.positive.min = 0 ∧
    (∀ i : Interval, i.min ≤ i.max → (i.contains i.min ∧ i.contains i.max)) ∧
    (∀ (s : Sphere) (ray : Ray), ray.direction ≠ Vec3.zero →
      (ray.origin - s.center).length2 = s.radius * s.radius →
      ∃ rec, s.hit ray Interval.positive = some rec ∧ rec.t = 0) := by
  refine ⟨rfl, ?_, ?_⟩
  · intro i hle
    exact ⟨⟨le_refl _, hle⟩, ⟨hle, le_refl _⟩⟩
  · intro s ray _ hsurf
    exact Sphere.self_hit hsurf

/-- C10, witness: a bounce ray starting on the example sphere's surface is
reported as hitting it again at t = 0, and the closed interval [0, 1]
contains both endpoints. -/
theorem C10_witness :
    (exSphere.hit exRayOnSurface Interval.positive).map HitRecord.t = some 0 ∧
      (Interval.new 0 1).contains (Interval.new 0 1).min ∧
      (Interval.new 0 1).contains (Interval.new 0 1).max := by
  obtain ⟨rec, h1, h2⟩ := C10_self_intersection.2.2 exSphere exRayOnSurface
    exRayOnSurface_direction_ne_zero exRayOnSurface_on_exSphere
  refine ⟨?_, ?_⟩
  · rw [h1]
    simp [h2]
  · exact C10_self_intersection.2.1 (Interval.new 0 1)
      (by show (0:ℝ) ≤ 1; norm_num)

end

end RustTracer
